import Mathlib

/-!
# Verification of the `brc` aggregation pipeline

A shallow embedding, in Lean 4, of the core of the `brc` repository
(a "one billion row challenge" style aggregator written in Rust), together
with theorems settling the specification claims about it.

Conventions of the embedding:
* Rust byte slices (`&[u8]`) become `List Nat` (each element a byte value)
  when the logical contents matter, or a pair of a length and a total
  function `Nat → Nat` when the code is permitted to read past the logical
  length (the `memops.rs` primitives and `hash64` do exactly that).
* Rust machine integers become `Nat`/`Int`.  Where a computation can wrap
  on `u64` (the hash mixing in `station_map.rs`) the wrap is modelled
  explicitly with `% 2 ^ 64`.  The aggregate statistics (`i32` min/max/count,
  `i64` total in `temperature_summary.rs`) are modelled as unbounded `Int`:
  with readings bounded by the input grammar (|value| ≤ 999 tenths) those
  fields cannot reach the `i32`/`i64` limits on any run the program targets
  (the design point is 10^9 records; `i64` totals would need ~9·10^15).
* The hash table (`hashbrown::HashMap` with the pass-through hasher) is
  modelled as an association list with distinct keys, in insertion order;
  `insert` on an existing key replaces the value, otherwise appends.
  Key equality in the real map is `StationNameKeyView` equality, i.e.
  `memeq64_unchecked` on the name bytes; the theorem for the memory
  comparison below proves that for the well-formed keys the claims range
  over (length ≤ 56 < 64) this coincides with plain byte-list equality,
  which is what the map model uses.
* Fallible code (`BrcResult`) becomes `Except`.
-/

namespace Brc

/-! ## `main.rs`: `digit_to_i32` and `parse_temperature`

`digit_to_i32` is `d.wrapping_sub(b'0') as i32` on a `u8`:
modelled as `(d + 208) % 256` (for any byte `d < 256` this equals
`(d - 48) mod 256`, the `u8` wrapping subtraction). -/

def digit_to_i32 (d : Nat) : Int :=
  ((d + 208) % 256 : Nat)

/-- `main.rs` `parse_temperature`: parses a value of the form `;[-][d]d.d`
from the end of a line.  The four reads are at fixed offsets from the end
of the slice: `c0 = line[n-1]`, `c1 = line[n-3]`, `c2 = line[n-4]`,
`c3 = line[n-5]` (`p`, `p.sub(2)`, `p.sub(3)`, `p.sub(4)` from the last
byte).  The two `cmovnz` calls are conditional moves: `hundreds` is zeroed
when the value has two digits, and the result is negated when a minus sign
is seen. -/
def parse_temperature (line : List Nat) : Int :=
  let n := line.length
  let c0 := line.getD (n - 1) 0
  let c1 := line.getD (n - 3) 0
  let c2 := line.getD (n - 4) 0
  let c3 := line.getD (n - 5) 0
  let is_two_digits : Bool := (c2 == 59) || (c2 == 45)
  let is_negative : Bool := (c3 == 45) || (c2 == 45)
  let hundreds : Int := if is_two_digits then 0 else digit_to_i32 c2
  let result : Int := 10 * (10 * hundreds + digit_to_i32 c1) + digit_to_i32 c0
  if is_negative then -result else result

/-! ## `temperature_summary.rs`: the aggregate cell -/

/-- `TemperatureSummary`: per-key running statistics
`{min: i32, max: i32, total: i64, count: i32}` (tenths-scaled readings). -/
structure TemperatureSummary where
  min : Int
  max : Int
  total : Int
  count : Int
deriving DecidableEq

namespace TemperatureSummary

/-- `TemperatureSummary::add_reading`. -/
def add_reading (s : TemperatureSummary) (temp : Int) : TemperatureSummary :=
  { min := Min.min s.min temp
    max := Max.max s.max temp
    total := s.total + temp
    count := s.count + 1 }

/-- `TemperatureSummary::of`: the cell seeded from a first reading. -/
def of (temp : Int) : TemperatureSummary :=
  { min := temp, max := temp, total := temp, count := 1 }

/-- `Default for TemperatureSummary`: `min = i32::MAX`, `max = i32::MIN`,
`total = 0`, `count = 0`. -/
def defaultCell : TemperatureSummary :=
  { min := 2 ^ 31 - 1, max := -(2 ^ 31), total := 0, count := 0 }

/-- The tenths-scaled integer computed inside `TemperatureSummary::avg`:
`(self.total + (self.count / 2) as i64).div_euclid(self.count as i64)`.
Rust `/` on `i32` truncates toward zero (`Int.tdiv`); `div_euclid` is
Euclidean division (`Int.ediv`).  `avg` itself then converts this integer
to `f64` and divides by `10.0` purely for display. -/
def avg_tenths (s : TemperatureSummary) : Int :=
  (s.total + s.count.tdiv 2).ediv s.count

end TemperatureSummary

/-! ## The station map (`station_map.rs` + `hashbrown`), as an
association list.

Keys are the station-name byte lists.  The real table resolves equality
with `StationNameKeyView::eq` (= `memeq64_unchecked`), which for the
well-formed keys considered here (≤ 56 bytes) coincides with byte-list
equality — proved below for the memory primitive. -/

abbrev Key := List Nat

/-- One input record, after scanning: station-name bytes and the
tenths-scaled temperature produced by `parse_temperature`. -/
abbrev Record := Key × Int

abbrev StationMap := List (Key × TemperatureSummary)

/-- Map lookup (`HashMap::get` / the raw-entry lookup by hash plus
equality predicate — both find the unique entry whose key is equal). -/
def mapGet (k : Key) : StationMap → Option TemperatureSummary
  | [] => none
  | (k', v) :: rest => if k' = k then some v else mapGet k rest

/-- Whether the key is present (`is_some` of the lookup). -/
def mapContains (m : StationMap) (k : Key) : Bool :=
  (mapGet k m).isSome

/-- Apply `add_reading t` to the cell for `k`, if present: the effect of
`e.1.add_reading(t)` / `v.add_reading(t)` through a reference obtained
from a lookup. -/
def mapAdd (k : Key) (t : Int) : StationMap → StationMap
  | [] => []
  | (k', v) :: rest =>
    if k' = k then (k', v.add_reading t) :: rest else (k', v) :: mapAdd k t rest

/-- `HashMap::insert`: if the key is present the value is replaced
(the stored key is kept), otherwise a fresh entry is added. -/
def mapInsert (k : Key) (v : TemperatureSummary) : StationMap → StationMap
  | [] => [(k, v)]
  | (k', v') :: rest =>
    if k' = k then (k', v) :: rest else (k', v') :: mapInsert k v rest

/-! ## `main.rs`: the pipeline driver `temperature_reading_summaries`

`batched_process_lines::<4, _>` feeds the callback batches of four
records while the cursor is below the 1024-aligned end of the mapped
file, then single records for the tail; the embedding takes that record
segmentation (a list of 4-record batches followed by a list of single
records) as input.  The callback bodies are translated line by line. -/

/-- A batch of four records as delivered by the bulk phase. -/
abbrev Batch := Record × Record × Record × Record

/-- The `lines.len() == 4` branch of the callback in
`temperature_reading_summaries` (`main.rs:157-240`): all four lookups are
resolved against the incoming map first (`e0..e3`, before any mutation),
the hits are updated in order, and then the deferred inserts run —
including the slip at `main.rs:215` where lane 0's insert is guarded by
`!e0_found || !e1_found || !e2_found || !e3_found` instead of
`!e0_found`. -/
def processBatch (m : StationMap) (b : Batch) : StationMap :=
  let r0 := b.1
  let r1 := b.2.1
  let r2 := b.2.2.1
  let r3 := b.2.2.2
  let e0_found := mapContains m r0.1
  let e1_found := mapContains m r1.1
  let e2_found := mapContains m r2.1
  let e3_found := mapContains m r3.1
  let m := if e0_found then mapAdd r0.1 r0.2 m else m
  let m := if e1_found then mapAdd r1.1 r1.2 m else m
  let m := if e2_found then mapAdd r2.1 r2.2 m else m
  let m := if e3_found then mapAdd r3.1 r3.2 m else m
  let m := if !e0_found || !e1_found || !e2_found || !e3_found then
    mapInsert r0.1 (TemperatureSummary.of r0.2) m else m
  let m := if !e1_found then mapInsert r1.1 (TemperatureSummary.of r1.2) m else m
  let m := if !e2_found then mapInsert r2.1 (TemperatureSummary.of r2.2) m else m
  let m := if !e3_found then mapInsert r3.1 (TemperatureSummary.of r3.2) m else m
  m

/-- The single-record branch of the callback
(`main.rs:241-257`): `get_mut` then `add_reading`, else `insert` a cell
seeded with `TemperatureSummary::of`. -/
def processSingle (m : StationMap) (r : Record) : StationMap :=
  match mapGet r.1 m with
  | some _ => mapAdd r.1 r.2 m
  | none => mapInsert r.1 (TemperatureSummary.of r.2) m

/-- The whole aggregation pass: the bulk phase (batches of four), then
the tail phase (single records), starting from the empty map. -/
def runDriver (bulk : List Batch) (tail : List Record) : StationMap :=
  tail.foldl processSingle (bulk.foldl processBatch [])

/-- Processing every record through the single-record path — the
reference behaviour the batched phase is claimed to be equivalent to. -/
def runSingles (records : List Record) : StationMap :=
  records.foldl processSingle []

/-- The record sequence a bulk-phase batch carries, in file order. -/
def batchRecords (b : Batch) : List Record :=
  [b.1, b.2.1, b.2.2.1, b.2.2.2]

/-! ### Output ordering (`Ord for WeatherStation` and `sorted_unstable`) -/

/-- Byte-wise lexicographic strict order on keys — `Ord` on the Rust
`String` station names compares the UTF-8 bytes lexicographically. -/
def keyLt : Key → Key → Bool
  | [], [] => false
  | [], _ :: _ => true
  | _ :: _, [] => false
  | a :: as_, b :: bs => a < b || (a == b && keyLt as_ bs)

/-- The `≤` comparator used for sorting (total order induced by
`keyLt`). -/
def keyLe (a b : Key) : Bool := !keyLt b a

/-- `sorted_unstable` over the drained `(key, summary)` pairs, ordered by
`Ord for WeatherStation`, i.e. by name. -/
def sortedStations (m : StationMap) : StationMap :=
  m.mergeSort fun p q => keyLe p.1 q.1

/-! ## `memops.rs`: the vectorized comparison primitives

An operand of `memeq32_unchecked`/`memeq64_unchecked` is a slice whose
backing memory extends past its logical length (the caller guarantees at
least 64 readable bytes); it is modelled as a logical length plus a total
function giving the byte at each backing offset. -/

/-- The 32-bit movemask produced by `_mm256_cmpeq_epi8` +
`_mm256_movemask_epi8` on the 32 bytes loaded from `a` and `b`:
bit `i` (for `i < width`) is set iff `a i = b i` (built bit 0 first). -/
def eqMask (a b : Nat → Nat) : Nat → Nat
  | 0 => 0
  | w + 1 =>
    (if a 0 = b 0 then 1 else 0) +
      2 * eqMask (fun i => a (i + 1)) (fun i => b (i + 1)) w

/-- `u32::trailing_ones`, restricted to `w` bits: counts the consecutive
set low bits. -/
def trailingOnesAux : Nat → Nat → Nat
  | _, 0 => 0
  | m, w + 1 => if m % 2 = 1 then trailingOnesAux (m / 2) w + 1 else 0

/-- `u32::trailing_ones` of a 32-bit mask. -/
def trailingOnes32 (m : Nat) : Nat := trailingOnesAux m 32

/-- `memops.rs` `memeq32_unchecked`: compares the loaded 32-byte vectors
and requires `a.len() == b.len() && mask.trailing_ones() >= a.len().min(32)`. -/
def memeq32_unchecked (aLen bLen : Nat) (a b : Nat → Nat) : Bool :=
  aLen == bLen && decide (Min.min aLen 32 ≤ trailingOnes32 (eqMask a b 32))

/-- `memops.rs` `memeq64_unchecked`: the 32-byte check, and when the
slice is longer than 32 bytes, a second 32-byte check on the suffixes
starting at offset 32 (`get_unchecked(32..)`). -/
def memeq64_unchecked (aLen bLen : Nat) (a b : Nat → Nat) : Bool :=
  let res := memeq32_unchecked aLen bLen a b
  if aLen ≤ 32 then res
  else res && memeq32_unchecked (aLen - 32) (bLen - 32)
    (fun i => a (32 + i)) (fun i => b (32 + i))

/-! ## `station_map.rs`: `hash64` and the pass-through hasher -/

/-- The FxHash-derived multiplier from `station_map.rs`. -/
def SEED : Nat := 0xf1357aea2e62a9c5

/-- `station_map.rs` `hash64`: samples four bytes of the key (at offsets
`0`, `len/4`, `len/2`, `len-1` — all in range for a non-empty key),
packs them with the length, and mixes with two wrapping multiplies and
xor-shifts on `u64`.  The key is given as its length and the byte at
each offset (reads are `u8`, hence `% 256`). -/
def hash64 (len : Nat) (data : Nat → Nat) : Nat :=
  let b0 := data 0 % 256
  let b1 := data (len / 4) % 256
  let b2 := data (len / 2) % 256
  let b3 := data (len - 1) % 256
  let x := (b0 <<< 56) ||| (b1 <<< 48) ||| (b2 <<< 40) ||| (b3 <<< 32)
  let hash := x ^^^ (len % 2 ^ 64)
  let hash := hash * SEED % 2 ^ 64
  let hash := hash ^^^ (hash >>> 32)
  let hash := hash * SEED % 2 ^ 64
  hash ^^^ (hash >>> 32)

/-- `NopHasher`: holds the single `u64` written so far. -/
structure NopHasher where
  val : Nat
deriving DecidableEq

/-- `NopHasher::default()`: state `0`. -/
def NopHasher.default : NopHasher := ⟨0⟩

/-- `Hasher::write_u64` for `NopHasher`: stores the value. -/
def NopHasher.write_u64 (_h : NopHasher) (i : Nat) : NopHasher := ⟨i⟩

/-- `Hasher::finish` for `NopHasher`: returns the stored value. -/
def NopHasher.finish (h : NopHasher) : Nat := h.val

/-- The internal hash value the station map derives for a key:
`Hash for StationNameKeyView` writes `hash_u64()` (= `hash64` of the name
bytes) into a fresh `NopHasher`, whose `finish` the table uses. -/
def stationMapHash (len : Nat) (data : Nat → Nat) : Nat :=
  (NopHasher.write_u64 NopHasher.default (hash64 len data)).finish

/-! ## `error.rs` and the fallible entry point -/

/-- `BrcError`: a single descriptive error value. -/
structure BrcError where
  message : String
deriving DecidableEq

/-- `BrcError::new`. -/
def BrcError.new (message : String) : BrcError := ⟨message⟩

/-- `temperature_reading_summaries` (`main.rs:148-267`): `File::open` is
the only fallible step and happens first; its result is the `openResult`
argument (`Except.error err` models an `io::Error` with message `err`).
On failure the function returns the mapped `BrcError` at once — the
station map is not yet constructed and no record is processed.  On
success the driver runs and the drained entries are sorted by name. -/
def temperature_reading_summaries (input_path : String)
    (openResult : Except String (List Batch × List Record)) :
    Except BrcError StationMap :=
  match openResult with
  | .error err =>
    .error (BrcError.new ("Failed to open " ++ input_path ++ ": " ++ err))
  | .ok (bulk, tail) => .ok (sortedStations (runDriver bulk tail))

end Brc
namespace Brc

/-! ## Lemmas about `parse_temperature` -/

/-- Prepending a byte to a line of length ≥ 5 does not change the parse:
all four reads are anchored to the end of the line and stay at distance
at most 4 from the last byte. -/
lemma parse_temperature_cons (x : Nat) (m : List Nat) (h : 5 ≤ m.length) :
    parse_temperature (x :: m) = parse_temperature m := by
  have h1 : m.length + 1 - 1 = (m.length - 1) + 1 := by omega
  have h3 : m.length + 1 - 3 = (m.length - 3) + 1 := by omega
  have h4 : m.length + 1 - 4 = (m.length - 4) + 1 := by omega
  have h5 : m.length + 1 - 5 = (m.length - 5) + 1 := by omega
  simp only [parse_temperature, List.length_cons, h1, h3, h4, h5,
    List.getD_cons_succ]

lemma parse_temperature_append (key l : List Nat) (h : 5 ≤ l.length) :
    parse_temperature (key ++ l) = parse_temperature l := by
  induction key with
  | nil => rfl
  | cons x key ih =>
    have hl : 5 ≤ (key ++ l).length := by simp; omega
    rw [List.cons_append, parse_temperature_cons x _ hl, ih]

end Brc
namespace Brc

/-- Reading a decimal digit byte: `digit_to_i32 (x + 48) = x`. -/
lemma digit_to_i32_digit (x : Nat) (hx : x ≤ 9) : digit_to_i32 (x + 48) = (x : Int) := by
  simp only [digit_to_i32]
  norm_cast
  omega

/-- Value shape `-dd.d`. -/
lemma parse_shape_neg2 (a b c : Nat) (ha : a ≤ 9) (hb : b ≤ 9) (hc : c ≤ 9) :
    parse_temperature [59, 45, a + 48, b + 48, 46, c + 48]
      = -(100 * (a : Int) + 10 * b + c) := by
  simp only [parse_temperature, List.length_cons, List.length_nil, List.getD,
    List.getElem?_cons_succ, List.getElem?_cons_zero, Option.getD_some]
  norm_num
  rw [if_neg (by omega : ¬(a + 48 = 59 ∨ a + 48 = 45)),
    digit_to_i32_digit a ha, digit_to_i32_digit b hb, digit_to_i32_digit c hc]
  ring

/-- Value shape `-d.d`. -/
lemma parse_shape_neg1 (b c : Nat) (hb : b ≤ 9) (hc : c ≤ 9) :
    parse_temperature [59, 45, b + 48, 46, c + 48] = -(10 * (b : Int) + c) := by
  simp only [parse_temperature, List.length_cons, List.length_nil, List.getD,
    List.getElem?_cons_succ, List.getElem?_cons_zero, Option.getD_some]
  norm_num
  rw [digit_to_i32_digit b hb, digit_to_i32_digit c hc]

/-- Value shape `dd.d`. -/
lemma parse_shape_pos2 (a b c : Nat) (ha : a ≤ 9) (hb : b ≤ 9) (hc : c ≤ 9) :
    parse_temperature [59, a + 48, b + 48, 46, c + 48]
      = 100 * (a : Int) + 10 * b + c := by
  simp only [parse_temperature, List.length_cons, List.length_nil, List.getD,
    List.getElem?_cons_succ, List.getElem?_cons_zero, Option.getD_some]
  norm_num
  rw [if_neg (by omega : ¬(a + 48 = 59 ∨ a + 48 = 45)),
    if_neg (by omega : ¬(a + 48 = 45)),
    digit_to_i32_digit a ha, digit_to_i32_digit b hb, digit_to_i32_digit c hc]
  ring

/-- Value shape `d.d` after a single key byte `d0 ≠ '-'`. -/
lemma parse_shape_pos1 (d0 b c : Nat) (hd : d0 ≠ 45) (hb : b ≤ 9) (hc : c ≤ 9) :
    parse_temperature [d0, 59, b + 48, 46, c + 48] = 10 * (b : Int) + c := by
  simp only [parse_temperature, List.length_cons, List.length_nil, List.getD,
    List.getElem?_cons_succ, List.getElem?_cons_zero, Option.getD_some]
  norm_num
  rw [if_neg (by omega : ¬(d0 = 45))]
  rw [digit_to_i32_digit b hb, digit_to_i32_digit c hc]

end Brc
namespace Brc

/-- Value shape `d.d` at the end of a line with a non-empty key whose
last byte is not `'-'`: the read five bytes from the end lands on that
key byte, and the parse is correct exactly because it is not a minus. -/
lemma parse_shape_pos1_key (key : List Nat) (b c : Nat) (hk : 1 ≤ key.length)
    (hlast : key.getD (key.length - 1) 0 ≠ 45) (hb : b ≤ 9) (hc : c ≤ 9) :
    parse_temperature (key ++ [59, b + 48, 46, c + 48]) = 10 * (b : Int) + c := by
  induction key with
  | nil => simp at hk
  | cons x key ih =>
    cases key with
    | nil =>
      exact parse_shape_pos1 x b c (by simpa using hlast) hb hc
    | cons y key' =>
      have h5 : 5 ≤ ((y :: key') ++ [59, b + 48, 46, c + 48]).length := by
        simp
      rw [List.cons_append, parse_temperature_cons x _ h5]
      apply ih (by simp)
      simpa using hlast

/-- Claim C2 counterexample: the line `-;9.9` (key `-`, value field `9.9`)
has a suffix matching `;d.d` and is long enough for the four end-relative
reads, yet `parse_temperature` returns `-99`, not the claimed `99`: the
read five bytes from the end picks up the key byte `'-'` and flips the
sign. -/
theorem C2_counterexample :
    parse_temperature [45, 59, 57, 46, 57] = -99 ∧
    parse_temperature [45, 59, 57, 46, 57] ≠ 99 := by
  constructor
  · decide
  · decide

/-- Claim C2 (amended): for every line whose suffix matches `;[-]d[d].d`
and is long enough for the four fixed end-relative reads,
`parse_temperature` returns the field's value scaled by 10, regardless of
the key bytes — except that for the short unsigned shape `;d.d` the key
byte immediately before the delimiter must not be `'-'` (if it is, the
result is negated; see the counterexample). -/
theorem C2_parse_temperature_amended (key : List Nat) (a b c : Nat)
    (ha : a ≤ 9) (hb : b ≤ 9) (hc : c ≤ 9) :
    parse_temperature (key ++ [59, 45, a + 48, b + 48, 46, c + 48])
        = -(100 * (a : Int) + 10 * b + c) ∧
    parse_temperature (key ++ [59, 45, b + 48, 46, c + 48])
        = -(10 * (b : Int) + c) ∧
    parse_temperature (key ++ [59, a + 48, b + 48, 46, c + 48])
        = 100 * (a : Int) + 10 * b + c ∧
    (1 ≤ key.length → key.getD (key.length - 1) 0 ≠ 45 →
      parse_temperature (key ++ [59, b + 48, 46, c + 48]) = 10 * (b : Int) + c) := by
  refine ⟨?_, ?_, ?_, ?_⟩
  · rw [parse_temperature_append _ _ (by simp), parse_shape_neg2 a b c ha hb hc]
  · rw [parse_temperature_append _ _ (by simp), parse_shape_neg1 b c hb hc]
  · rw [parse_temperature_append _ _ (by simp), parse_shape_pos2 a b c ha hb hc]
  · intro hk hlast
    exact parse_shape_pos1_key key b c hk hlast hb hc

/-- Witness for C2: the amended theorem applied to the key `A` and the
digit triple `(1, 2, 3)` — covering the fields `-12.3`, `-2.3`, `12.3`
and `2.3`. -/
theorem C2_parse_temperature_amended_witness :
    ((1 : Nat) ≤ 9 ∧ (2 : Nat) ≤ 9 ∧ (3 : Nat) ≤ 9) ∧
    (parse_temperature ([65] ++ [59, 45, 1 + 48, 2 + 48, 46, 3 + 48])
        = -(100 * (1 : Int) + 10 * 2 + 3) ∧
    parse_temperature ([65] ++ [59, 45, 2 + 48, 46, 3 + 48])
        = -(10 * (2 : Int) + 3) ∧
    parse_temperature ([65] ++ [59, 1 + 48, 2 + 48, 46, 3 + 48])
        = 100 * (1 : Int) + 10 * 2 + 3 ∧
    (1 ≤ [65].length → [65].getD ([65].length - 1) 0 ≠ 45 →
      parse_temperature ([65] ++ [59, 2 + 48, 46, 3 + 48]) = 10 * (2 : Int) + 3)) :=
  ⟨⟨by decide, by decide, by decide⟩,
    C2_parse_temperature_amended [65] 1 2 3 (by decide) (by decide) (by decide)⟩

end Brc

namespace Brc

/-! ## Claims C1 and C3: the bulk-phase insert slip

`main.rs:215` guards lane 0's deferred insert with
`!e0_found || !e1_found || !e2_found || !e3_found` (its three siblings use
only their own flag).  Whenever lane 0's key was already present but some
other lane missed, the already-updated cell for lane 0's key is
overwritten with a fresh `TemperatureSummary::of(temperature0)`,
discarding that key's accumulated statistics.  The input below (record
values are tenths-scaled temperatures) exhibits it: the two batches
correspond to the first eight records of a well-formed input file of at
least 1024 bytes, e.g.
`A;1.0\nB;2.0\nC;3.0\nD;4.0\nA;3.0\nE;5.0\nF;6.0\nG;7.0\n` followed by
distinct single-occurrence stations as padding (which touch neither `A`
nor the other keys below). -/

/-- First batch: `A;1.0`, `B;2.0`, `C;3.0`, `D;4.0` — all keys new. -/
def slipBatch1 : Batch := (([65], 10), ([66], 20), ([67], 30), ([68], 40))

/-- Second batch: `A;3.0`, `E;5.0`, `F;6.0`, `G;7.0` — lane 0 hits, the
other three lanes miss. -/
def slipBatch2 : Batch := (([65], 30), ([69], 50), ([70], 60), ([71], 70))

/-- Claim C1 (code bug): after the two batches, the key `A` occurs twice
in the input but its cell reads `{min 3.0, max 3.0, sum 3.0, count 1}`:
in the second batch `A` is found, `add_reading(30)` correctly makes its
cell `{10, 30, 40, 2}`, but because lanes 1–3 missed, the slip at
`main.rs:215` then overwrites it with `TemperatureSummary::of(30)`.
The claimed property (count = number of occurrences of the key) fails:
the count is 1, the occurrences are 2. -/
theorem C1_count_mismatch :
    mapGet [65] (runDriver [slipBatch1, slipBatch2] [])
      = some { min := 30, max := 30, total := 30, count := 1 } ∧
    ((batchRecords slipBatch1 ++ batchRecords slipBatch2).filter
        (fun r => r.1 == [65])).length = 2 := by
  constructor
  · decide
  · decide

/-- Claim C3 (code bug): on the same eight records, the bulk path
(batches of four) and the single-record path do not produce the same
final map contents: the single-record path gives `A` the cell
`{10, 30, 40, 2}`, the batched path gives `{30, 30, 30, 1}` because of
the `main.rs:215` slip. -/
theorem C3_batched_differs_from_single :
    mapGet [65] (runDriver [slipBatch1, slipBatch2] [])
      ≠ mapGet [65] (runSingles (batchRecords slipBatch1 ++ batchRecords slipBatch2)) := by
  decide

end Brc
namespace Brc

/-! ## Statistics of a cell built by `of` + `add_reading` (claims C4, C10)

A cell is *represented by* a non-empty reading list when it equals the
fold of `add_reading` over `TemperatureSummary::of` of the first
reading.  The driver only ever stores such cells. -/

/-- `s` is the cell obtained from first reading `v` followed by the
readings `vs`, in order. -/
def IsFoldOf (s : TemperatureSummary) (v : Int) (vs : List Int) : Prop :=
  s = vs.foldl TemperatureSummary.add_reading (TemperatureSummary.of v)

/-- A cell that the driver could have stored. -/
def GoodCell (s : TemperatureSummary) : Prop :=
  ∃ v vs, IsFoldOf s v vs

/-- Every cell in the map is a fold of readings. -/
def GoodMap (m : StationMap) : Prop :=
  ∀ kv ∈ m, GoodCell kv.2

lemma foldl_add_reading_total (vs : List Int) (s : TemperatureSummary) :
    (vs.foldl TemperatureSummary.add_reading s).total = s.total + vs.sum := by
  induction vs generalizing s with
  | nil => simp
  | cons v vs ih =>
    simp only [List.foldl_cons, ih, TemperatureSummary.add_reading, List.sum_cons]
    ring

lemma foldl_add_reading_count (vs : List Int) (s : TemperatureSummary) :
    (vs.foldl TemperatureSummary.add_reading s).count = s.count + vs.length := by
  induction vs generalizing s with
  | nil => simp
  | cons v vs ih =>
    simp only [List.foldl_cons, ih, TemperatureSummary.add_reading, List.length_cons]
    push_cast
    ring

lemma foldl_add_reading_min (vs : List Int) (s : TemperatureSummary) :
    (vs.foldl TemperatureSummary.add_reading s).min ≤ s.min ∧
      ∀ t ∈ vs, (vs.foldl TemperatureSummary.add_reading s).min ≤ t := by
  induction vs generalizing s with
  | nil => simp
  | cons v vs ih =>
    obtain ⟨h1, h2⟩ := ih (s.add_reading v)
    refine ⟨le_trans h1 ?_, ?_⟩
    · simp [TemperatureSummary.add_reading]
    · intro t ht
      rcases List.mem_cons.mp ht with rfl | ht
      · exact le_trans h1 (by simp [TemperatureSummary.add_reading])
      · exact h2 t ht

lemma foldl_add_reading_max (vs : List Int) (s : TemperatureSummary) :
    s.max ≤ (vs.foldl TemperatureSummary.add_reading s).max ∧
      ∀ t ∈ vs, t ≤ (vs.foldl TemperatureSummary.add_reading s).max := by
  induction vs generalizing s with
  | nil => simp
  | cons v vs ih =>
    obtain ⟨h1, h2⟩ := ih (s.add_reading v)
    refine ⟨le_trans ?_ h1, ?_⟩
    · simp [TemperatureSummary.add_reading]
    · intro t ht
      rcases List.mem_cons.mp ht with rfl | ht
      · exact le_trans (by simp [TemperatureSummary.add_reading]) h1
      · exact h2 t ht

/-- The full statistics contract for a represented cell. -/
lemma isFoldOf_stats (s : TemperatureSummary) (v : Int) (vs : List Int)
    (h : IsFoldOf s v vs) :
    (∀ t ∈ v :: vs, s.min ≤ t ∧ t ≤ s.max) ∧
      s.total = (v :: vs).sum ∧ s.count = ((v :: vs).length : Int) := by
  subst h
  refine ⟨?_, ?_, ?_⟩
  · intro t ht
    rcases List.mem_cons.mp ht with rfl | ht
    · constructor
      · exact le_trans (foldl_add_reading_min vs _).1 (le_refl _)
      · exact le_trans (le_refl _) (foldl_add_reading_max vs _).1
    · exact ⟨(foldl_add_reading_min vs _).2 t ht, (foldl_add_reading_max vs _).2 t ht⟩
  · simp [foldl_add_reading_total, TemperatureSummary.of]
  · simp [foldl_add_reading_count, TemperatureSummary.of]
    ring

lemma goodCell_of (t : Int) : GoodCell (TemperatureSummary.of t) :=
  ⟨t, [], rfl⟩

lemma goodCell_add_reading (s : TemperatureSummary) (t : Int) (h : GoodCell s) :
    GoodCell (s.add_reading t) := by
  obtain ⟨v, vs, hs⟩ := h
  refine ⟨v, vs ++ [t], ?_⟩
  simp only [IsFoldOf, List.foldl_append, List.foldl_cons, List.foldl_nil]
  rw [hs]

end Brc
namespace Brc

/-! ### Membership through the map operations -/

lemma mem_mapInsert (k : Key) (v : TemperatureSummary) (m : StationMap)
    (kv : Key × TemperatureSummary) (h : kv ∈ mapInsert k v m) :
    kv.2 = v ∨ kv ∈ m := by
  induction m with
  | nil =>
    simp only [mapInsert, List.mem_singleton] at h
    subst h
    exact Or.inl rfl
  | cons hd rest ih =>
    obtain ⟨k', v'⟩ := hd
    simp only [mapInsert] at h
    by_cases hk : k' = k
    · rw [if_pos hk] at h
      rcases List.mem_cons.mp h with rfl | h
      · exact Or.inl rfl
      · exact Or.inr (List.mem_cons_of_mem _ h)
    · rw [if_neg hk] at h
      rcases List.mem_cons.mp h with rfl | h
      · exact Or.inr (List.mem_cons_self _ _)
      · rcases ih h with h' | h'
        · exact Or.inl h'
        · exact Or.inr (List.mem_cons_of_mem _ h')

lemma mem_mapAdd (k : Key) (t : Int) (m : StationMap)
    (kv : Key × TemperatureSummary) (h : kv ∈ mapAdd k t m) :
    kv ∈ m ∨ ∃ s, (kv.1, s) ∈ m ∧ kv.2 = s.add_reading t := by
  induction m with
  | nil =>
    simp [mapAdd] at h
  | cons hd rest ih =>
    obtain ⟨k', v'⟩ := hd
    simp only [mapAdd] at h
    by_cases hk : k' = k
    · rw [if_pos hk] at h
      rcases List.mem_cons.mp h with rfl | h
      · exact Or.inr ⟨v', List.mem_cons_self _ _, rfl⟩
      · exact Or.inl (List.mem_cons_of_mem _ h)
    · rw [if_neg hk] at h
      rcases List.mem_cons.mp h with rfl | h
      · exact Or.inl (List.mem_cons_self _ _)
      · rcases ih h with h' | ⟨s, hs, hv⟩
        · exact Or.inl (List.mem_cons_of_mem _ h')
        · exact Or.inr ⟨s, List.mem_cons_of_mem _ hs, hv⟩

/-! ### The driver preserves `GoodMap` -/

lemma goodMap_nil : GoodMap [] := by
  intro kv h
  simp at h

lemma goodMap_mapInsert_of (m : StationMap) (k : Key) (t : Int)
    (h : GoodMap m) : GoodMap (mapInsert k (TemperatureSummary.of t) m) := by
  intro kv hkv
  rcases mem_mapInsert _ _ _ _ hkv with hv | hv
  · rw [hv]
    exact goodCell_of t
  · exact h kv hv

lemma goodMap_mapAdd (m : StationMap) (k : Key) (t : Int)
    (h : GoodMap m) : GoodMap (mapAdd k t m) := by
  intro kv hkv
  rcases mem_mapAdd _ _ _ _ hkv with hv | ⟨s, hs, hv⟩
  · exact h kv hv
  · rw [hv]
    exact goodCell_add_reading s t (h (kv.1, s) hs)

lemma goodMap_ite (c : Bool) (m₁ m₂ : StationMap)
    (h₁ : GoodMap m₁) (h₂ : GoodMap m₂) : GoodMap (if c then m₁ else m₂) := by
  cases c
  · simpa using h₂
  · simpa using h₁

lemma goodMap_processSingle (m : StationMap) (r : Record) (h : GoodMap m) :
    GoodMap (processSingle m r) := by
  unfold processSingle
  cases mapGet r.1 m
  · exact goodMap_mapInsert_of m r.1 r.2 h
  · exact goodMap_mapAdd m r.1 r.2 h

lemma goodMap_processBatch (m : StationMap) (b : Batch) (h : GoodMap m) :
    GoodMap (processBatch m b) := by
  obtain ⟨⟨k0, t0⟩, ⟨k1, t1⟩, ⟨k2, t2⟩, ⟨k3, t3⟩⟩ := b
  unfold processBatch
  cases h0 : mapContains m k0 <;> cases h1 : mapContains m k1 <;>
    cases h2 : mapContains m k2 <;> cases h3 : mapContains m k3 <;>
    simp only [h0, h1, h2, h3, Bool.not_true, Bool.not_false, Bool.false_or,
      Bool.true_or, Bool.or_true, Bool.or_false, Bool.or_self,
      if_true, if_false, Bool.false_eq_true, ite_true, ite_false] <;>
    (repeat first | apply goodMap_mapInsert_of | apply goodMap_mapAdd) <;>
    exact h

/-- Fold preservation, generic over the per-step function and the
invariant. -/
lemma foldl_preserves {α : Type} (P : StationMap → Prop)
    (f : StationMap → α → StationMap)
    (hf : ∀ m a, P m → P (f m a)) :
    ∀ (l : List α) (m : StationMap), P m → P (l.foldl f m) := by
  intro l
  induction l with
  | nil => intro m h; exact h
  | cons a l ih =>
    intro m h
    exact ih (f m a) (hf m a h)

lemma goodMap_runDriver (bulk : List Batch) (tail : List Record) :
    GoodMap (runDriver bulk tail) := by
  unfold runDriver
  apply foldl_preserves GoodMap processSingle goodMap_processSingle
  apply foldl_preserves GoodMap processBatch goodMap_processBatch
  exact goodMap_nil

end Brc
namespace Brc

/-- Claim C4 (code bug): the claim ranges over *all* values recorded for
a key in the run — `of` on the key's first occurrence, `add_reading` on
each subsequent one (spec: `sum == Σ values for that key`).  The
`main.rs:215` insert-guard slip violates it: on the two-batch input
below, the key `A` records the values `1.0` and `3.0` (tenths `10` and
`30`), so the claim demands `min ≤ 10` and `sum = 40`; but `A`'s cell in
the output is `{min 30, max 30, total 30, count 1}` — the overwrite with
`TemperatureSummary::of(30)` discarded the first recorded reading, so
the reported min exceeds a recorded value and the sum is not the exact
sum of the key's values. -/
theorem C4_stats_mismatch :
    mapGet [65] (runDriver [slipBatch1, slipBatch2] [])
      = some { min := 30, max := 30, total := 30, count := 1 } ∧
    ((batchRecords slipBatch1 ++ batchRecords slipBatch2).filter
        (fun r => r.1 == [65])).map Prod.snd = [10, 30] ∧
    ¬((30 : Int) ≤ 10) ∧ (30 : Int) ≠ 10 + 30 := by
  refine ⟨by decide, by decide, by decide, by decide⟩

/-- Claim C10: every cell the driver ever stores has `count ≥ 1` (cells
are created by `TemperatureSummary::of`, which sets count 1, and
`add_reading` only increments), so `avg`'s division by `count` never
divides by zero for a yielded summary, and the `Default` cell (count 0)
is never present. -/
theorem C10_count_positive (bulk : List Batch) (tail : List Record)
    (kv : Key × TemperatureSummary) (h : kv ∈ runDriver bulk tail) :
    1 ≤ kv.2.count ∧ kv.2 ≠ TemperatureSummary.defaultCell := by
  obtain ⟨v, vs, hfold⟩ := goodMap_runDriver bulk tail kv h
  have hcount : kv.2.count = (((v :: vs).length : Nat) : Int) :=
    (isFoldOf_stats _ _ _ hfold).2.2
  have hpos : 1 ≤ kv.2.count := by
    rw [hcount]
    simp only [List.length_cons]
    push_cast
    omega
  refine ⟨hpos, ?_⟩
  intro heq
  rw [heq] at hpos
  simp [TemperatureSummary.defaultCell] at hpos

/-- Witness for C10: the singleton run `A;1.0`. -/
theorem C10_count_positive_witness :
    (([65], TemperatureSummary.of 10) ∈ runDriver [] [([65], 10)]) ∧
    (1 ≤ (([65], TemperatureSummary.of 10)).2.count ∧
      (([65], TemperatureSummary.of 10)).2 ≠ TemperatureSummary.defaultCell) :=
  ⟨by decide, C10_count_positive [] [([65], 10)] ([65], TemperatureSummary.of 10) (by decide)⟩

end Brc
namespace Brc

/-! ## Keys stay distinct (for claim C8) -/

/-- The map never holds two entries with the same key. -/
def KeysNodup (m : StationMap) : Prop :=
  (m.map Prod.fst).Nodup

lemma keys_mapAdd (k : Key) (t : Int) (m : StationMap) :
    (mapAdd k t m).map Prod.fst = m.map Prod.fst := by
  induction m with
  | nil => rfl
  | cons hd rest ih =>
    obtain ⟨k', v'⟩ := hd
    simp only [mapAdd]
    by_cases hk : k' = k
    · rw [if_pos hk]
      simp
    · rw [if_neg hk]
      simp [ih]

lemma mem_keys_mapInsert (x k : Key) (v : TemperatureSummary) (m : StationMap)
    (h : x ∈ (mapInsert k v m).map Prod.fst) :
    x ∈ m.map Prod.fst ∨ x = k := by
  induction m with
  | nil =>
    simp only [mapInsert, List.map_cons, List.map_nil, List.mem_singleton] at h
    exact Or.inr h
  | cons hd rest ih =>
    obtain ⟨k', v'⟩ := hd
    simp only [mapInsert] at h
    by_cases hk : k' = k
    · rw [if_pos hk] at h
      simp only [List.map_cons, List.mem_cons] at h
      rcases h with rfl | h
      · exact Or.inl (by simp)
      · exact Or.inl (by simp [h])
    · rw [if_neg hk] at h
      simp only [List.map_cons, List.mem_cons] at h
      rcases h with rfl | h
      · exact Or.inl (by simp)
      · rcases ih h with h' | h'
        · exact Or.inl (by simp [h'])
        · exact Or.inr h'

lemma keysNodup_mapInsert (k : Key) (v : TemperatureSummary) (m : StationMap)
    (h : KeysNodup m) : KeysNodup (mapInsert k v m) := by
  induction m with
  | nil => simp [KeysNodup, mapInsert]
  | cons hd rest ih =>
    obtain ⟨k', v'⟩ := hd
    unfold KeysNodup at h
    simp only [List.map_cons, List.nodup_cons] at h
    obtain ⟨hk', hrest⟩ := h
    unfold KeysNodup
    simp only [mapInsert]
    by_cases hk : k' = k
    · rw [if_pos hk]
      simp only [List.map_cons, List.nodup_cons]
      exact ⟨hk', hrest⟩
    · rw [if_neg hk]
      simp only [List.map_cons, List.nodup_cons]
      refine ⟨?_, ih hrest⟩
      intro hmem
      rcases mem_keys_mapInsert _ _ _ _ hmem with h' | h'
      · exact hk' h'
      · exact hk h'

lemma keysNodup_mapAdd (k : Key) (t : Int) (m : StationMap)
    (h : KeysNodup m) : KeysNodup (mapAdd k t m) := by
  unfold KeysNodup
  rw [keys_mapAdd]
  exact h

lemma keysNodup_processSingle (m : StationMap) (r : Record) (h : KeysNodup m) :
    KeysNodup (processSingle m r) := by
  unfold processSingle
  cases mapGet r.1 m
  · exact keysNodup_mapInsert r.1 _ m h
  · exact keysNodup_mapAdd r.1 r.2 m h

lemma keysNodup_processBatch (m : StationMap) (b : Batch) (h : KeysNodup m) :
    KeysNodup (processBatch m b) := by
  obtain ⟨⟨k0, t0⟩, ⟨k1, t1⟩, ⟨k2, t2⟩, ⟨k3, t3⟩⟩ := b
  unfold processBatch
  cases h0 : mapContains m k0 <;> cases h1 : mapContains m k1 <;>
    cases h2 : mapContains m k2 <;> cases h3 : mapContains m k3 <;>
    simp only [h0, h1, h2, h3, Bool.not_true, Bool.not_false, Bool.false_or,
      Bool.true_or, Bool.or_true, Bool.or_false, Bool.or_self,
      if_true, if_false, Bool.false_eq_true, ite_true, ite_false] <;>
    (repeat first | apply keysNodup_mapInsert | apply keysNodup_mapAdd) <;>
    exact h

lemma keysNodup_runDriver (bulk : List Batch) (tail : List Record) :
    KeysNodup (runDriver bulk tail) := by
  unfold runDriver
  apply foldl_preserves KeysNodup processSingle keysNodup_processSingle
  apply foldl_preserves KeysNodup processBatch keysNodup_processBatch
  simp [KeysNodup]

end Brc
namespace Brc

/-! ## The byte-wise lexicographic order (for claim C8) -/

lemma keyLt_cons_iff (x y : Nat) (as_ bs : Key) :
    keyLt (x :: as_) (y :: bs) = true ↔ x < y ∨ (x = y ∧ keyLt as_ bs = true) := by
  simp [keyLt]

lemma keyLt_irrefl (a : Key) : keyLt a a = false := by
  induction a with
  | nil => rfl
  | cons x as_ ih => simp [keyLt, ih]

lemma keyLt_trans : ∀ a b c : Key, keyLt a b = true → keyLt b c = true →
    keyLt a c = true := by
  intro a
  induction a with
  | nil =>
    intro b c hab hbc
    cases b with
    | nil => simp [keyLt] at hab
    | cons y bs =>
      cases c with
      | nil => simp [keyLt] at hbc
      | cons z cs => rfl
  | cons x as_ ih =>
    intro b c hab hbc
    cases b with
    | nil => simp [keyLt] at hab
    | cons y bs =>
      cases c with
      | nil => simp [keyLt] at hbc
      | cons z cs =>
        rw [keyLt_cons_iff] at hab hbc ⊢
        rcases hab with hxy | ⟨rfl, hab⟩
        · rcases hbc with hyz | ⟨rfl, hbc⟩
          · exact Or.inl (lt_trans hxy hyz)
          · exact Or.inl hxy
        · rcases hbc with hyz | ⟨rfl, hbc⟩
          · exact Or.inl hyz
          · exact Or.inr ⟨rfl, ih bs cs hab hbc⟩

lemma keyLt_connex : ∀ a b : Key, keyLt a b = true ∨ a = b ∨ keyLt b a = true := by
  intro a
  induction a with
  | nil =>
    intro b
    cases b with
    | nil => exact Or.inr (Or.inl rfl)
    | cons y bs => exact Or.inl rfl
  | cons x as_ ih =>
    intro b
    cases b with
    | nil => exact Or.inr (Or.inr rfl)
    | cons y bs =>
      rcases Nat.lt_trichotomy x y with hxy | rfl | hyx
      · exact Or.inl ((keyLt_cons_iff _ _ _ _).mpr (Or.inl hxy))
      · rcases ih bs with h | rfl | h
        · exact Or.inl ((keyLt_cons_iff _ _ _ _).mpr (Or.inr ⟨rfl, h⟩))
        · exact Or.inr (Or.inl rfl)
        · exact Or.inr (Or.inr ((keyLt_cons_iff _ _ _ _).mpr (Or.inr ⟨rfl, h⟩)))
      · exact Or.inr (Or.inr ((keyLt_cons_iff _ _ _ _).mpr (Or.inl hyx)))

lemma keyLe_iff (a b : Key) : keyLe a b = true ↔ keyLt b a = false := by
  unfold keyLe
  cases keyLt b a <;> simp

lemma keyLe_total (a b : Key) : keyLe a b = true ∨ keyLe b a = true := by
  cases hba : keyLt b a
  · exact Or.inl ((keyLe_iff a b).mpr hba)
  · cases hab : keyLt a b
    · exact Or.inr ((keyLe_iff b a).mpr hab)
    · exfalso
      have h := keyLt_trans a b a hab hba
      rw [keyLt_irrefl] at h
      exact Bool.false_ne_true h

lemma keyLe_trans (a b c : Key) (hab : keyLe a b = true) (hbc : keyLe b c = true) :
    keyLe a c = true := by
  rw [keyLe_iff] at hab hbc ⊢
  cases hca : keyLt c a
  · rfl
  · exfalso
    rcases keyLt_connex a b with h | rfl | h
    · have h2 := keyLt_trans c a b hca h
      rw [hbc] at h2
      exact Bool.false_ne_true h2
    · rw [hbc] at hca
      exact Bool.false_ne_true hca
    · rw [hab] at h
      exact Bool.false_ne_true h

lemma keyLe_ne_lt (a b : Key) (hle : keyLe a b = true) (hne : a ≠ b) :
    keyLt a b = true := by
  rw [keyLe_iff] at hle
  rcases keyLt_connex a b with h | rfl | h
  · exact h
  · exact absurd rfl hne
  · rw [hle] at h
    exact (Bool.false_ne_true h).elim

end Brc
namespace Brc

/-- Claim C8: the `WeatherStation` sequence produced by the driver is
strictly increasing under byte-wise lexicographic comparison of the
station names — `sorted_unstable` orders by `Ord for WeatherStation`
(name comparison), and the map holds at most one entry per key, so no
two elements are equal or out of order. -/
theorem C8_output_strictly_sorted (bulk : List Batch) (tail : List Record)
    (h : 2 ≤ (runDriver bulk tail).length) :
    List.Pairwise (fun p q : Key × TemperatureSummary => keyLt p.1 q.1 = true)
      (sortedStations (runDriver bulk tail)) := by
  have hnd : KeysNodup (runDriver bulk tail) := keysNodup_runDriver bulk tail
  have hle : List.Pairwise
      (fun p q : Key × TemperatureSummary => keyLe p.1 q.1 = true)
      (sortedStations (runDriver bulk tail)) := by
    unfold sortedStations
    exact List.sorted_mergeSort
      (fun p q r hpq hqr => keyLe_trans p.1 q.1 r.1 hpq hqr)
      (fun p q => by
        rcases keyLe_total p.1 q.1 with h' | h'
        · simp [h']
        · simp [h'])
      (runDriver bulk tail)
  have hne : List.Pairwise
      (fun p q : Key × TemperatureSummary => p.1 ≠ q.1)
      (sortedStations (runDriver bulk tail)) := by
    have hperm : List.Perm (sortedStations (runDriver bulk tail))
        (runDriver bulk tail) := by
      unfold sortedStations
      exact List.mergeSort_perm _ _
    have hnd' : KeysNodup (sortedStations (runDriver bulk tail)) := by
      unfold KeysNodup at hnd ⊢
      exact ((hperm.map Prod.fst).nodup_iff).mpr hnd
    unfold KeysNodup at hnd'
    exact List.pairwise_map.mp hnd'
  exact List.Pairwise.imp₂ (fun p q h1 h2 => keyLe_ne_lt p.1 q.1 h1 h2) hle hne

/-- Witness for C8: the two-record run `B;2.0`, `A;1.0` — two distinct
keys, output sorted as `A`, `B`. -/
theorem C8_output_strictly_sorted_witness :
    2 ≤ (runDriver [] [([66], 20), ([65], 10)]).length ∧
    List.Pairwise (fun p q : Key × TemperatureSummary => keyLt p.1 q.1 = true)
      (sortedStations (runDriver [] [([66], 20), ([65], 10)])) :=
  ⟨by decide, C8_output_strictly_sorted [] [([66], 20), ([65], 10)] (by decide)⟩

end Brc
namespace Brc

/-- Claim C9: when the input file cannot be opened,
`temperature_reading_summaries` returns the single descriptive `BrcError`
built from the open failure, before any record is read or any table
entry is created: the result is the error value for every possible file
content, so no element of the summary sequence is ever produced. -/
theorem C9_open_failure_is_fatal (input_path : String) (err : String)
    (bulk : List Batch) (tail : List Record) :
    temperature_reading_summaries input_path (Except.error err)
        = Except.error (BrcError.new ("Failed to open " ++ input_path ++ ": " ++ err)) ∧
    temperature_reading_summaries input_path (Except.ok (bulk, tail))
        = Except.ok (sortedStations (runDriver bulk tail)) :=
  ⟨rfl, rfl⟩

end Brc
namespace Brc

/-! ## Claim C5: the rounding rule of `avg` -/

/-- Modelled from the spec's words ("round-half-to-even or the host's
default rounding for that precision"): the nearest integer to `q`, ties
going to the even neighbour.  Used only to exhibit that the code's
rounding differs from it at ties. -/
def roundHalfEven (q : ℚ) : ℤ :=
  if Int.fract q < 1 / 2 then ⌊q⌋
  else if 1 / 2 < Int.fract q then ⌊q⌋ + 1
  else if ⌊q⌋ % 2 = 0 then ⌊q⌋ else ⌊q⌋ + 1

/-- The cell of ten readings summing to 25 tenths (average 0.25 °): five
readings of 0.2 ° and five of 0.3 °. -/
def halfTieCell : TemperatureSummary :=
  List.foldl TemperatureSummary.add_reading (TemperatureSummary.of 2)
    [2, 2, 2, 2, 3, 3, 3, 3, 3]

/-- Claim C5 counterexample: for the cell with `sum = 25`, `count = 10`
(a representable run: ten readings `0.2`/`0.3`), the integer
`(sum + count/2).div_euclid(count)` computed by `avg` is `3`, while
`round(sum/count, 1 decimal)` under round-half-to-even is `2` tenths
(2.5 tenths ties to the even neighbour 2): the code rounds ties toward
`+∞`, not to even. -/
theorem C5_counterexample :
    TemperatureSummary.avg_tenths halfTieCell = 3 ∧
    roundHalfEven ((halfTieCell.total : ℚ) / (halfTieCell.count : ℚ)) = 2 ∧
    (3 : Int) ≠ 2 := by
  refine ⟨by decide, ?_, by decide⟩
  have h1 : ((halfTieCell.total : ℚ) / (halfTieCell.count : ℚ)) = 5 / 2 := by
    norm_num [halfTieCell, TemperatureSummary.add_reading, TemperatureSummary.of]
  rw [h1]
  have h2 : Int.fract ((5 : ℚ) / 2) = 1 / 2 := by
    rw [Int.fract]
    norm_num
  have h3 : ⌊(5 : ℚ) / 2⌋ = 2 := by
    norm_num [Int.floor_eq_iff]
  rw [roundHalfEven, h2, h3]
  norm_num

end Brc
namespace Brc

/-- Claim C5 (amended): for every `TemperatureSummary` with `count ≥ 1`,
the tenths-scaled integer `(sum + count/2).div_euclid(count)` computed
inside `avg` equals the nearest integer to `sum/count` with ties rounded
toward `+∞` (round-half-up, Mathlib's `round`), for positive and
negative sums alike — not round-half-to-even (see the counterexample). -/
theorem C5_avg_rounds_half_up (s : TemperatureSummary) (h : 1 ≤ s.count) :
    s.avg_tenths = round ((s.total : ℚ) / (s.count : ℚ)) := by
  obtain ⟨mn, mx, t, c⟩ := s
  simp only [TemperatureSummary.avg_tenths] at *
  set d := Int.tdiv c 2 with hd
  set q := Int.ediv (t + d) c with hq
  have hc0 : (0 : Int) < c := h
  have hdd : 2 * d ≤ c ∧ c ≤ 2 * d + 1 := by
    have h1 := Int.tdiv_add_tmod c 2
    have h2 := Int.tmod_nonneg 2 (le_of_lt hc0)
    have h3 := Int.tmod_lt_of_pos c (by norm_num : (0 : Int) < 2)
    omega
  have hqq : c * q + (t + d) % c = t + d := Int.ediv_add_emod (t + d) c
  obtain ⟨N, hN⟩ : ∃ N, c * q = N := ⟨_, rfl⟩
  rw [hN] at hqq
  have hr0 : 0 ≤ (t + d) % c := Int.emod_nonneg _ (by omega)
  have hr1 : (t + d) % c < c := Int.emod_lt_of_pos _ hc0
  have key1 : 2 * N ≤ 2 * t + c := by omega
  have key2 : 2 * t + c < 2 * N + 2 * c := by omega
  have hcq : (0 : ℚ) < (c : ℚ) := by exact_mod_cast hc0
  have heq : ((t : ℚ)) / (c : ℚ) + 1 / 2 = ((2 * t + c : Int) : ℚ) / ((2 * c : Int) : ℚ) := by
    push_cast
    field_simp
    ring
  rw [round_eq, heq]
  symm
  rw [Int.floor_eq_iff]
  constructor
  · rw [le_div_iff (by push_cast; linarith)]
    have : ((q : ℚ)) * ((2 * c : Int) : ℚ) = ((2 * N : Int) : ℚ) := by
      push_cast [← hN]
      ring
    rw [this]
    exact_mod_cast key1
  · rw [div_lt_iff (by push_cast; linarith)]
    have : ((q : ℚ) + 1) * ((2 * c : Int) : ℚ) = ((2 * N + 2 * c : Int) : ℚ) := by
      push_cast [← hN]
      ring
    rw [this]
    exact_mod_cast key2

/-- Witness for C5: the singleton cell `of 10` (count 1): the computed
tenths integer is `10` and `round(10/1) = 10`. -/
theorem C5_avg_rounds_half_up_witness :
    1 ≤ (TemperatureSummary.of 10).count ∧
    (TemperatureSummary.of 10).avg_tenths
      = round (((TemperatureSummary.of 10).total : ℚ)
          / ((TemperatureSummary.of 10).count : ℚ)) :=
  ⟨by decide, C5_avg_rounds_half_up (TemperatureSummary.of 10) (by decide)⟩

end Brc
namespace Brc

/-! ## Claim C6: correctness of the fixed-width memory comparison -/

lemma trailingOnesAux_eqMask :
    ∀ (w : Nat) (a b : Nat → Nat) (j : Nat), j ≤ w →
      (j ≤ trailingOnesAux (eqMask a b w) w ↔ ∀ i < j, a i = b i) := by
  intro w
  induction w with
  | zero =>
    intro a b j hj
    have hj0 : j = 0 := Nat.le_zero.mp hj
    subst hj0
    simp
  | succ w ih =>
    intro a b j hj
    match j with
    | 0 => simp
    | j + 1 =>
      by_cases h0 : a 0 = b 0
      · have hm : eqMask a b (w + 1)
            = 1 + 2 * eqMask (fun i => a (i + 1)) (fun i => b (i + 1)) w := by
          simp [eqMask, h0]
        have hmod : eqMask a b (w + 1) % 2 = 1 := by omega
        have hdiv : eqMask a b (w + 1) / 2
            = eqMask (fun i => a (i + 1)) (fun i => b (i + 1)) w := by omega
        rw [trailingOnesAux, if_pos hmod, hdiv, Nat.add_le_add_iff_right,
          ih _ _ j (by omega)]
        constructor
        · intro hall i hi
          match i with
          | 0 => exact h0
          | i + 1 => exact hall i (by omega)
        · intro hall i hi
          exact hall (i + 1) (by omega)
      · have hm : eqMask a b (w + 1)
            = 0 + 2 * eqMask (fun i => a (i + 1)) (fun i => b (i + 1)) w := by
          simp [eqMask, h0]
        have hmod : ¬(eqMask a b (w + 1) % 2 = 1) := by omega
        rw [trailingOnesAux, if_neg hmod]
        constructor
        · intro hle
          exact absurd hle (by omega)
        · intro hall
          exact absurd (hall 0 (by omega)) h0

lemma memeq32_iff (aLen bLen : Nat) (a b : Nat → Nat) :
    memeq32_unchecked aLen bLen a b = true ↔
      (aLen = bLen ∧ ∀ i < Min.min aLen 32, a i = b i) := by
  unfold memeq32_unchecked trailingOnes32
  rw [Bool.and_eq_true, beq_iff_eq, decide_eq_true_eq,
    trailingOnesAux_eqMask 32 a b (Min.min aLen 32) (by omega)]

/-- Claim C6: for operands whose declared lengths are at most 64 (each
backed by readable bytes at every offset, which the totality of the byte
functions models), `memeq64_unchecked` returns `true` exactly when the
lengths are equal and the logical bytes agree — in particular the bytes
past the declared length never affect the result, since the right-hand
side does not mention them.  `StationNameKeyView` equality is exactly
this check applied to the two names' bytes (`station_map.rs:65-69`). -/
theorem C6_memeq64_iff (aLen bLen : Nat) (a b : Nat → Nat)
    (ha : aLen ≤ 64) (hb : bLen ≤ 64) :
    memeq64_unchecked aLen bLen a b = true ↔
      (aLen = bLen ∧ ∀ i < aLen, a i = b i) := by
  unfold memeq64_unchecked
  by_cases h32 : aLen ≤ 32
  · rw [if_pos h32, memeq32_iff]
    have hmin : Min.min aLen 32 = aLen := by omega
    rw [hmin]
  · rw [if_neg h32, Bool.and_eq_true, memeq32_iff, memeq32_iff]
    have hmin1 : Min.min aLen 32 = 32 := by omega
    have hmin2 : Min.min (aLen - 32) 32 = aLen - 32 := by omega
    rw [hmin1, hmin2]
    constructor
    · rintro ⟨⟨hlen, h1⟩, hlen2, h2⟩
      refine ⟨hlen, ?_⟩
      intro i hi
      by_cases hi32 : i < 32
      · exact h1 i hi32
      · have h' := h2 (i - 32) (by omega)
        have heq : 32 + (i - 32) = i := by omega
        rw [heq] at h'
        exact h'
    · rintro ⟨hlen, hall⟩
      refine ⟨⟨hlen, fun i hi => hall i (by omega)⟩, by omega, ?_⟩
      intro i hi
      exact hall (32 + i) (by omega)

/-- Witness for C6: two 40-byte operands that agree on their logical
bytes but differ at backing offset 63 (past the length) compare equal;
flipping logical byte 39 instead makes them unequal. -/
theorem C6_memeq64_iff_witness :
    ((40 : Nat) ≤ 64 ∧ (40 : Nat) ≤ 64) ∧
    (memeq64_unchecked 40 40 (fun i => i)
        (fun i => if i = 63 then 0 else i) = true ↔
      ((40 : Nat) = 40 ∧ ∀ i < 40, (fun i : Nat => i) i
          = (fun i : Nat => if i = 63 then 0 else i) i)) :=
  ⟨⟨by decide, by decide⟩,
    C6_memeq64_iff 40 40 (fun i => i) (fun i => if i = 63 then 0 else i)
      (by decide) (by decide)⟩

end Brc
namespace Brc

/-- Claim C7: two non-empty keys that are equal under the key-equality
contract (equal length, equal bytes) hash to the same 64-bit code —
`hash64` reads only the bytes at offsets `0`, `len/4`, `len/2`, `len-1`,
all within the key for a non-empty key — and the hash value the station
map uses internally is exactly that code: `NopHasher` returns the single
`u64` written by the key's `Hash` implementation with no further
mixing. -/
theorem C7_hash_welldefined (la lb : Nat) (a b : Nat → Nat)
    (hpos : 0 < la) (hlen : la = lb) (hbytes : ∀ i < la, a i = b i) :
    hash64 la a = hash64 lb b ∧ stationMapHash la a = hash64 la a := by
  subst hlen
  have h0 : a 0 = b 0 := hbytes 0 hpos
  have h1 : a (la / 4) = b (la / 4) := hbytes _ (Nat.div_lt_self hpos (by omega))
  have h2 : a (la / 2) = b (la / 2) := hbytes _ (Nat.div_lt_self hpos (by omega))
  have h3 : a (la - 1) = b (la - 1) := hbytes _ (by omega)
  constructor
  · unfold hash64
    rw [h0, h1, h2, h3]
  · rfl

/-- Witness for C7: the key `ABC` compared against a second buffer that
holds the same three logical bytes but different padding. -/
theorem C7_hash_welldefined_witness :
    ((0 : Nat) < 3 ∧ (3 : Nat) = 3 ∧
      (∀ i < 3, [65, 66, 67].getD i 0 = [65, 66, 67].getD i 9)) ∧
    (hash64 3 (fun i => [65, 66, 67].getD i 0)
        = hash64 3 (fun i => [65, 66, 67].getD i 9) ∧
      stationMapHash 3 (fun i => [65, 66, 67].getD i 0)
        = hash64 3 (fun i => [65, 66, 67].getD i 0)) :=
  ⟨⟨by decide, by decide, by decide⟩,
    C7_hash_welldefined 3 3 (fun i => [65, 66, 67].getD i 0)
      (fun i => [65, 66, 67].getD i 9) (by decide) (by decide) (by decide)⟩

end Brc
